import Mathlib

/-!
# Strata inference capture and tensor-streaming engine: verification development

Shallow embedding of the frontend consumer of the Strata inference engine:
the Zustand cache store (`frontend/src/store.js`), the WebSocket stream
consumer (`frontend/src/App.jsx`), the run-start guard
(`InputPanel.runInference`), and the identity-resolution lookup used by
`DetailPanel` and the 3D `Scene` (exact key, sanitized key, suffix-name
containment).

Strings are modelled as Lean `String` over their character lists.  The JS
object used as cache is modelled as an insertion-ordered association list
with in-place overwrite, matching `{...obj, [k]: v}` semantics for
non-numeric keys (all runtime layer keys are non-numeric identifiers, so
the JS integer-key reordering rule never applies).
-/

namespace Strata

/-- `sanChar` is the per-character action of the JS regex replace
`raw.replace(/[^a-zA-Z0-9_]/g, '_')`: characters outside `[A-Za-z0-9_]`
become `'_'`. -/
def sanChar (c : Char) : Char :=
  if c.isAlphanum || c == '_' then c else '_'

/-- `sanitize` models `raw.replace(/[^a-zA-Z0-9_]/g, '_')` from
`App.jsx` (key aliasing) and `DetailPanel`/`Scene` (lookup). -/
def sanitize (s : String) : String :=
  ⟨s.data.map sanChar⟩

/-- `cleanForMatch` models `s?.replace(/[^a-zA-Z0-9]/g, '').toLowerCase() || ''`
from `DetailPanel` (and the identical inline `clean` in `Scene`): drop
non-alphanumeric characters, lower-case the rest. -/
def cleanForMatch (s : String) : String :=
  ⟨(s.data.filter Char.isAlphanum).map Char.toLower⟩

/-- Helper for `lastSeg`: walks the character list, restarting the current
segment after each `'/'`; returns the final segment. -/
def lastSegAux : List Char → List Char → List Char
  | seg, [] => seg.reverse
  | _, '/' :: rest => lastSegAux [] rest
  | seg, c :: rest => lastSegAux (c :: seg) rest

/-- `lastSeg` models `name.split('/').pop()`: the last path segment of a
name (the whole string when it has no `'/'`, `""` for a trailing `'/'`). -/
def lastSeg (s : String) : String :=
  ⟨lastSegAux [] s.data⟩

/-- Boolean infix test on character lists, the substring search behind JS
`String.prototype.includes`. -/
def infixOfB (pat : List Char) : List Char → Bool
  | [] => pat.isPrefixOf []
  | c :: cs => pat.isPrefixOf (c :: cs) || infixOfB pat cs

/-- `containsSub s pat` models `s.includes(pat)`. -/
def containsSub (s pat : String) : Bool :=
  infixOfB pat.data s.data

/-- The per-layer record streamed by the backend, restricted to the fields
the cited consumer code reads: `layer_id` (the runtime key, `''` when the
message has no `layer_id`) and `name` (the display name used by the
suffix-name match).  Tensor payload fields are irrelevant to every cited
code path and are omitted. -/
structure LayerRecord where
  layer_id : String
  name : String
  deriving DecidableEq, Repr

/-- A static OperationNode as read by the cited code: `id` (structural
identifier) and optional `name` (may be absent in JS). -/
structure OperationNode where
  id : String
  name : Option String
  deriving DecidableEq, Repr

/-- The inference cache: a JS object keyed by strings, modelled as an
insertion-ordered association list with unique keys. -/
abbrev Cache := List (String × LayerRecord)

/-- `cacheGet c k` models `c[k]` (property read; `none` = `undefined`). -/
def cacheGet (c : Cache) (k : String) : Option LayerRecord :=
  (c.find? (fun p => p.1 == k)).map (·.2)

/-- `cacheSet c k v` models `c[k] = v` on a JS object: overwrite in place
when the key exists, append otherwise. -/
def cacheSet : Cache → String → LayerRecord → Cache
  | [], k, v => [(k, v)]
  | p :: ps, k, v => if p.1 = k then (k, v) :: ps else p :: cacheSet ps k v

/-- `cacheValues` models `Object.values(c)`. -/
def cacheValues (c : Cache) : List LayerRecord :=
  c.map (·.2)

/-- `batchMerge c batch` models the spread merge `{...c, ...batch}` used by
`addToCacheBatch` in `store.js`. -/
def batchMerge (c batch : Cache) : Cache :=
  batch.foldl (fun acc p => cacheSet acc p.1 p.2) c

/-- Storing one record under a set of keys: the Cache Store `put` contract
(`store.js` `addToCache`/`addToCacheBatch` with every key mapped to the
same record). -/
def putUnderKeys (c : Cache) (keys : List String) (r : LayerRecord) : Cache :=
  batchMerge c (keys.map (fun k => (k, r)))

/-- The key a record message is stored under first:
`pendingRef.current[raw || 'layer'] = data` in `App.jsx`. -/
def keyRaw (r : LayerRecord) : String :=
  if r.layer_id = "" then "layer" else r.layer_id

/-- The put performed by `App.jsx` `ws.onmessage` for one record message:
store under `raw || 'layer'`, and additionally under the sanitized key when
that is non-empty. -/
def putRecordKeys (p : Cache) (r : LayerRecord) : Cache :=
  let p1 := cacheSet p (keyRaw r) r
  if sanitize r.layer_id ≠ "" then cacheSet p1 (sanitize r.layer_id) r else p1

/-- The cleaned node-side comparand of the suffix-name rule:
`cleanForMatch(selectedNode?.name?.split('/').pop())`, which is `''` when
the node or its name is absent. -/
def nodeClean (nodeName : Option String) : String :=
  match nodeName with
  | none => ""
  | some n => cleanForMatch (lastSeg n)

/-- The predicate of the fuzzy `find` in `DetailPanel`/`Scene`:
`nClean && rClean && rClean.includes(nClean)`. -/
def suffixRuleMatches (nodeName : Option String) (recName : String) : Bool :=
  let nC := nodeClean nodeName
  let rC := cleanForMatch recName
  (nC != "") && (rC != "") && containsSub rC nC

/-- Modelled from the spec (§4.3 rule 3), for comparison with the code's
`suffixRuleMatches`: the spec's suffix-name rule matches "if one string
contains the other", i.e. containment in either direction. -/
def specSuffixMatch (nodeName recName : String) : Bool :=
  let nC := cleanForMatch (lastSeg nodeName)
  let rC := cleanForMatch recName
  (nC != "") && (rC != "") && (containsSub rC nC || containsSub nC rC)

/-- The record lookup of `DetailPanel` (`FileSizeModal.jsx` concatenation,
`DetailPanel` component) and `Scene` (`GraphView`): exact cache hit on the
node id, else hit on the sanitized node id, else first cache value whose
cleaned name contains the cleaned last segment of the node's name. -/
def findRecord (cache : Cache) (nodeId : String) (nodeName : Option String) :
    Option LayerRecord :=
  match cacheGet cache nodeId with
  | some r => some r
  | none =>
    match cacheGet cache (sanitize nodeId) with
    | some r => some r
    | none => (cacheValues cache).find? (fun r => suffixRuleMatches nodeName r.name)

/-- `modelGraph?.nodes?.find((n) => n.id === selectedLayerId)`. -/
def findNode (nodes : List OperationNode) (nodeId : String) : Option OperationNode :=
  nodes.find? (fun n => n.id == nodeId)

/-- Full resolution for a selected node id against the static node set:
look the node up by id, then run `findRecord` with its name. -/
def resolveRecord (nodes : List OperationNode) (cache : Cache) (nodeId : String) :
    Option LayerRecord :=
  findRecord cache nodeId ((findNode nodes nodeId).bind (·.name))

/-! ## Run session state machine

One state for the pieces of process-wide state the cited code touches:
the Zustand store fields (`modelGraph` presence, `inferenceCache`,
`isRunning`, `layerOrder`) and the `App` component's consumer-local refs
(`pendingRef`, the 100 ms flush timer, the 120 s inference timeout), plus
a flag recording whether a timeout alert was shown. -/

structure SessionState where
  modelLoaded : Bool
  cache : Cache
  pending : Cache
  layerOrder : List String
  running : Bool
  flushTimer : Bool
  infTimer : Bool
  alerted : Bool
  deriving DecidableEq, Repr

/-- `store.js` `clearCache`: `set({ inferenceCache: {}, layerOrder: [] })`.
Note it does not touch the consumer-local `pending` buffer. -/
def clearCache (s : SessionState) : SessionState :=
  { s with cache := [], layerOrder := [] }

/-- `store.js` `setRunning`. -/
def setRunning (s : SessionState) (b : Bool) : SessionState :=
  { s with running := b }

/-- `store.js` `addToCacheBatch`: spread-merge a batch into the cache. -/
def addToCacheBatch (s : SessionState) (batch : Cache) : SessionState :=
  { s with cache := batchMerge s.cache batch }

/-- `store.js` `setLayerOrder`. -/
def setLayerOrder (s : SessionState) (ids : List String) : SessionState :=
  { s with layerOrder := ids }

/-- `App.jsx` `flushPending`: move the whole pending buffer into the cache
as one batch (skipping the store call when empty) and clear the flush
timer. -/
def flushPending (s : SessionState) : SessionState :=
  let batch := s.pending
  let s1 := { s with pending := [], flushTimer := false }
  if batch.isEmpty then s1 else addToCacheBatch s1 batch

/-- A parsed WebSocket message as the consumer sees it: the JSON `null`
sentinel, a record object, or text that fails `JSON.parse`. -/
inductive WireMsg where
  | jnull
  | record (r : LayerRecord)
  | malformed
  deriving DecidableEq, Repr

/-- `App.jsx` `ws.onmessage`: on the `null` sentinel clear the inference
timeout, clear `running`, flush pending; on a record, stash it in pending
under its raw and sanitized keys and arm (if unarmed) the inference
timeout and the flush timer; on a parse failure just clear `running`. -/
def onMessage (s : SessionState) (m : WireMsg) : SessionState :=
  match m with
  | .malformed => setRunning s false
  | .jnull => flushPending (setRunning { s with infTimer := false } false)
  | .record r =>
      let s1 := { s with pending := putRecordKeys s.pending r }
      { s1 with infTimer := true, flushTimer := true }

/-- `InputPanel.runInference`, synchronous prefix: the `canRun` guard
(`modelGraph && !isRunning`), then input validation (alert and return when
the input is empty), then `setRunning(true); clearCache()`. -/
def startRunFn (s : SessionState) (inputOk : Bool) : SessionState :=
  if s.modelLoaded && !s.running then
    if inputOk then clearCache (setRunning s true) else s
  else s

/-- `App.handleLoadModel` on a successful load: `clearCache();
setLayerOrder([])` before the request, model graph installed on success. -/
def loadModelFn (s : SessionState) : SessionState :=
  { clearCache s with modelLoaded := true }

/-- Completion of the `/run-inference` POST: `setLayerOrder(data.layer_ids)`
then the `finally` clause's `setRunning(false)`. -/
def runDoneFn (s : SessionState) (ids : List String) : SessionState :=
  setRunning (setLayerOrder s ids) false

/-- Failure of the `/run-inference` POST: alert, then `finally`
`setRunning(false)`. -/
def runFailFn (s : SessionState) : SessionState :=
  setRunning s false

/-- The asynchronous events of one session: a WebSocket message, the 100 ms
flush timer firing, the 120 s inference timeout firing, socket close/error,
a run-start click, a model load, and the inference request settling. -/
inductive Ev where
  | msg (m : WireMsg)
  | flushFire
  | infFire
  | wsClose
  | wsError
  | startRun (inputOk : Bool)
  | loadModel
  | runDone (ids : List String)
  | runFail
  deriving DecidableEq, Repr

/-- Events produced by the stream/timers of a single run (no run-start, no
model load, no HTTP settlement). -/
def Ev.isStreamEv : Ev → Bool
  | .msg _ | .flushFire | .infFire | .wsClose | .wsError => true
  | _ => false

/-- One transition of the session.  Timer-fire events are no-ops when the
corresponding timer is not armed (an unarmed JS timer has no callback to
run); the 120 s timeout callback clears `running` and alerts without
flushing. -/
def step (s : SessionState) : Ev → SessionState
  | .msg m => onMessage s m
  | .flushFire => if s.flushTimer then flushPending s else s
  | .infFire =>
      if s.infTimer then { s with running := false, infTimer := false, alerted := true }
      else s
  | .wsClose => setRunning s false
  | .wsError => setRunning s false
  | .startRun ok => startRunFn s ok
  | .loadModel => loadModelFn s
  | .runDone ids => runDoneFn s ids
  | .runFail => runFailFn s

/-- Process a list of events in order. -/
def processEvents (s : SessionState) (evs : List Ev) : SessionState :=
  evs.foldl step s

/-- Fresh session: nothing loaded, everything empty and idle. -/
def sessionInit : SessionState :=
  { modelLoaded := false, cache := [], pending := [], layerOrder := []
  , running := false, flushTimer := false, infTimer := false, alerted := false }

/-- State at the start of an accepted inference run: model loaded, cache
cleared, `running` set, no timers armed, nothing pending.  Equals
`processEvents sessionInit [Ev.loadModel, Ev.startRun true]`. -/
def runStart : SessionState :=
  { modelLoaded := true, cache := [], pending := [], layerOrder := []
  , running := true, flushTimer := false, infTimer := false, alerted := false }

/-! ## Basic lemmas about the cache and the key normalizers -/

@[simp]
theorem cacheGet_nil (k : String) : cacheGet [] k = none := rfl

theorem cacheGet_cons (p : String × LayerRecord) (ps : Cache) (k : String) :
    cacheGet (p :: ps) k = if p.1 = k then some p.2 else cacheGet ps k := by
  simp only [cacheGet, List.find?]
  by_cases h : p.1 = k
  · simp [h]
  · simp [h, beq_eq_false_iff_ne.mpr h]

@[simp]
theorem cacheGet_set_self (c : Cache) (k : String) (v : LayerRecord) :
    cacheGet (cacheSet c k v) k = some v := by
  induction c with
  | nil => simp [cacheSet, cacheGet_cons]
  | cons p ps ih =>
      by_cases h : p.1 = k
      · simp [cacheSet, h, cacheGet_cons]
      · simp [cacheSet, h, cacheGet_cons, ih]

theorem cacheGet_set_other (c : Cache) (k k' : String) (v : LayerRecord)
    (h : k' ≠ k) : cacheGet (cacheSet c k v) k' = cacheGet c k' := by
  have hne : ¬ (k = k') := fun hh => h hh.symm
  induction c with
  | nil => simp [cacheSet, cacheGet_cons, hne]
  | cons p ps ih =>
      by_cases hp : p.1 = k
      · subst hp
        simp [cacheSet, cacheGet_cons, hne]
      · simp only [cacheSet, if_neg hp, cacheGet_cons, ih]

theorem cacheGet_set_cases (c : Cache) (k k' : String) (v v' : LayerRecord)
    (h : cacheGet (cacheSet c k v) k' = some v') :
    v' = v ∨ cacheGet c k' = some v' := by
  by_cases hk : k' = k
  · subst hk
    rw [cacheGet_set_self] at h
    exact Or.inl (Option.some.inj h).symm
  · rw [cacheGet_set_other c k k' v hk] at h
    exact Or.inr h

theorem mem_cacheSet_cases (c : Cache) (k : String) (v : LayerRecord)
    (p : String × LayerRecord) (h : p ∈ cacheSet c k v) :
    p.2 = v ∨ p ∈ c := by
  induction c with
  | nil =>
      simp only [cacheSet, List.mem_singleton] at h
      exact Or.inl (by rw [h])
  | cons q qs ih =>
      by_cases hq : q.1 = k
      · simp only [cacheSet, if_pos hq, List.mem_cons] at h
        rcases h with h | h
        · exact Or.inl (by rw [h])
        · exact Or.inr (List.mem_cons_of_mem _ h)
      · simp only [cacheSet, if_neg hq, List.mem_cons] at h
        rcases h with h | h
        · exact Or.inr (h ▸ List.mem_cons_self _ _)
        · rcases ih h with h' | h'
          · exact Or.inl h'
          · exact Or.inr (List.mem_cons_of_mem _ h')

theorem mem_batchMerge_cases (b : Cache) (c : Cache) (p : String × LayerRecord)
    (h : p ∈ batchMerge c b) : p.2 ∈ cacheValues c ∨ p.2 ∈ cacheValues b := by
  induction b generalizing c with
  | nil => exact Or.inl (List.mem_map_of_mem _ h)
  | cons q qs ih =>
      have hstep : p ∈ batchMerge (cacheSet c q.1 q.2) qs := h
      rcases ih (cacheSet c q.1 q.2) hstep with h' | h'
      · rcases List.mem_map.mp h' with ⟨pr, hpr, hv⟩
        rcases mem_cacheSet_cases c q.1 q.2 pr hpr with hc | hc
        · refine Or.inr ?_
          have hpq : p.2 = q.2 := by rw [← hv, hc]
          rw [hpq]
          exact List.mem_map_of_mem _ (List.mem_cons_self _ _)
        · exact Or.inl (hv ▸ List.mem_map_of_mem (·.2) hc)
      · refine Or.inr ?_
        have hvals : cacheValues (q :: qs) = q.2 :: cacheValues qs := rfl
        rw [hvals]
        exact List.mem_cons_of_mem _ h'

theorem cacheGet_mem (c : Cache) (k : String) (v : LayerRecord)
    (h : cacheGet c k = some v) : (k, v) ∈ c := by
  induction c with
  | nil => simp at h
  | cons p ps ih =>
      rw [cacheGet_cons] at h
      by_cases hp : p.1 = k
      · rw [if_pos hp] at h
        have hpkv : p = (k, v) := by
          cases p
          simp only [Option.some.injEq] at h
          simp_all
        exact hpkv ▸ List.mem_cons_self _ _
      · rw [if_neg hp] at h
        exact List.mem_cons_of_mem _ (ih h)

/-- Keys of a cache, for the uniqueness invariant. -/
def cacheKeys (c : Cache) : List String := c.map (·.1)

/-- The unique-keys invariant JS objects satisfy by construction. -/
def NodupKeys (c : Cache) : Prop := (cacheKeys c).Nodup

theorem cacheKeys_set (c : Cache) (k : String) (v : LayerRecord) :
    cacheKeys (cacheSet c k v) = if k ∈ cacheKeys c then cacheKeys c else cacheKeys c ++ [k] := by
  induction c with
  | nil => simp [cacheSet, cacheKeys]
  | cons p ps ih =>
      by_cases hp : p.1 = k
      · subst hp
        have hmem : p.1 ∈ cacheKeys (p :: ps) := by simp [cacheKeys]
        simp only [cacheSet, if_pos rfl, if_pos hmem]
        rfl
      · have hne : k ≠ p.1 := fun hh => hp hh.symm
        simp only [cacheSet, if_neg hp]
        have hL : cacheKeys (p :: cacheSet ps k v) = p.1 :: cacheKeys (cacheSet ps k v) := rfl
        have hC : cacheKeys (p :: ps) = p.1 :: cacheKeys ps := rfl
        rw [hL, ih, hC]
        by_cases hm : k ∈ cacheKeys ps
        · simp [hm, hne]
        · simp [hm, hne]

theorem nodupKeys_set (c : Cache) (k : String) (v : LayerRecord)
    (h : NodupKeys c) : NodupKeys (cacheSet c k v) := by
  unfold NodupKeys
  rw [cacheKeys_set]
  by_cases hm : k ∈ cacheKeys c
  · simpa [hm] using h
  · rw [if_neg hm, List.nodup_append]
    refine ⟨h, List.nodup_singleton k, fun x hx hxk => ?_⟩
    rw [List.mem_singleton] at hxk
    exact hm (hxk ▸ hx)

theorem cacheGet_eq_none_of_not_mem (c : Cache) (k : String)
    (h : k ∉ cacheKeys c) : cacheGet c k = none := by
  induction c with
  | nil => rfl
  | cons p ps ih =>
      simp only [cacheKeys, List.map_cons, List.mem_cons, not_or] at h
      rw [cacheGet_cons, if_neg (fun hh => h.1 hh.symm)]
      exact ih h.2

theorem cacheGet_batchMerge (b : Cache) (c : Cache) (k : String)
    (hb : NodupKeys b) :
    cacheGet (batchMerge c b) k =
      match cacheGet b k with
      | some v => some v
      | none => cacheGet c k := by
  induction b generalizing c with
  | nil => rfl
  | cons q qs ih =>
      have hq : NodupKeys qs := by
        simpa [NodupKeys, cacheKeys] using (List.nodup_cons.mp hb).2
      have hknotin : q.1 ∉ cacheKeys qs := by
        simpa [NodupKeys, cacheKeys] using (List.nodup_cons.mp hb).1
      show cacheGet (batchMerge (cacheSet c q.1 q.2) qs) k = _
      rw [ih (cacheSet c q.1 q.2) hq]
      by_cases hk : k = q.1
      · subst hk
        rw [cacheGet_eq_none_of_not_mem qs q.1 hknotin]
        simp [cacheGet_cons]
      · rw [cacheGet_set_other c q.1 k q.2 hk, cacheGet_cons, if_neg (fun hh => hk hh.symm)]

/-! ### `sanitize` and key-shape lemmas -/

theorem sanChar_idem (c : Char) : sanChar (sanChar c) = sanChar c := by
  unfold sanChar
  by_cases h : (c.isAlphanum || c == '_') = true
  · simp [h]
  · simp [h]

theorem sanitize_idem (s : String) : sanitize (sanitize s) = sanitize s := by
  simp only [sanitize, List.map_map]
  congr 1
  exact List.map_congr_left (fun c _ => sanChar_idem c)

theorem sanitize_ne_empty (s : String) (h : s ≠ "") : sanitize s ≠ "" := by
  intro hcon
  apply h
  have hdata : s.data.map sanChar = [] := congrArg String.data hcon
  have : s.data = [] := List.map_eq_nil_iff.mp hdata
  cases s
  simp_all

theorem cacheGet_putRecordKeys (p : Cache) (r : LayerRecord) (k : String) :
    cacheGet (putRecordKeys p r) k =
      if k = keyRaw r ∨ (sanitize r.layer_id ≠ "" ∧ k = sanitize r.layer_id)
      then some r else cacheGet p k := by
  unfold putRecordKeys
  by_cases hs : sanitize r.layer_id ≠ ""
  · rw [if_pos hs]
    by_cases hk : k = sanitize r.layer_id
    · subst hk
      simp [hs]
    · rw [cacheGet_set_other _ _ _ _ hk]
      by_cases hkr : k = keyRaw r
      · subst hkr
        simp [hs, hk]
      · rw [cacheGet_set_other _ _ _ _ hkr, if_neg]
        push_neg
        exact ⟨hkr, fun _ => hk⟩
  · rw [if_neg hs]
    by_cases hkr : k = keyRaw r
    · subst hkr
      simp [hs]
    · rw [cacheGet_set_other _ _ _ _ hkr, if_neg]
      push_neg
      exact ⟨hkr, fun hh => absurd hh hs⟩

theorem nodupKeys_putRecordKeys (p : Cache) (r : LayerRecord)
    (h : NodupKeys p) : NodupKeys (putRecordKeys p r) := by
  unfold putRecordKeys
  by_cases hs : sanitize r.layer_id ≠ ""
  · rw [if_pos hs]
    exact nodupKeys_set _ _ _ (nodupKeys_set _ _ _ h)
  · rw [if_neg hs]
    exact nodupKeys_set _ _ _ h

/-! ## Lemmas about `putUnderKeys` (Cache Store `put` contract) -/

theorem cacheGet_putUnderKeys_not_mem (c : Cache) (keys : List String)
    (r : LayerRecord) (k : String) (h : k ∉ keys) :
    cacheGet (putUnderKeys c keys r) k = cacheGet c k := by
  induction keys generalizing c with
  | nil => rfl
  | cons k1 ks ih =>
      simp only [List.mem_cons, not_or] at h
      have hstep : putUnderKeys c (k1 :: ks) r = putUnderKeys (cacheSet c k1 r) ks r := rfl
      rw [hstep, ih _ h.2, cacheGet_set_other c k1 k r h.1]

theorem cacheGet_putUnderKeys_mem (c : Cache) (keys : List String)
    (r : LayerRecord) (k : String) (h : k ∈ keys) :
    cacheGet (putUnderKeys c keys r) k = some r := by
  induction keys generalizing c with
  | nil => exact absurd h (List.not_mem_nil k)
  | cons k1 ks ih =>
      have hstep : putUnderKeys c (k1 :: ks) r = putUnderKeys (cacheSet c k1 r) ks r := rfl
      rw [hstep]
      by_cases hks : k ∈ ks
      · exact ih _ hks
      · have hk1 : k = k1 := by
          rcases List.mem_cons.mp h with h' | h'
          · exact h'
          · exact absurd h' hks
        subst hk1
        rw [cacheGet_putUnderKeys_not_mem _ ks r k hks, cacheGet_set_self]

/-! ## Session state-machine lemmas -/

/-- The merged lookup view of cache plus pending buffer: what the cache
will answer for `k` once everything pending has been flushed (pending
shadows cache, as the later spread in `addToCacheBatch` wins). -/
def getView (s : SessionState) (k : String) : Option LayerRecord :=
  match cacheGet s.pending k with
  | some v => some v
  | none => cacheGet s.cache k

/-- The set of keys a record message writes into the pending buffer. -/
def writesKey (r : LayerRecord) (k : String) : Prop :=
  k = keyRaw r ∨ (sanitize r.layer_id ≠ "" ∧ k = sanitize r.layer_id)

instance (r : LayerRecord) (k : String) : Decidable (writesKey r k) := by
  unfold writesKey
  infer_instance

theorem flushPending_pending (s : SessionState) : (flushPending s).pending = [] := by
  unfold flushPending
  by_cases hemp : s.pending.isEmpty <;> simp [hemp, addToCacheBatch]

theorem flushPending_running (s : SessionState) : (flushPending s).running = s.running := by
  unfold flushPending
  by_cases hemp : s.pending.isEmpty <;> simp [hemp, addToCacheBatch]

theorem nodupKeys_nil : NodupKeys ([] : Cache) := by
  simp [NodupKeys, cacheKeys]

theorem getView_flushPending (s : SessionState) (k : String) (h : NodupKeys s.pending) :
    getView (flushPending s) k = getView s k := by
  unfold flushPending
  by_cases hemp : s.pending.isEmpty
  · have hp : s.pending = [] := List.isEmpty_iff.mp hemp
    simp [hemp, getView, hp]
  · simp only [if_neg hemp, addToCacheBatch, getView]
    rw [cacheGet_batchMerge s.pending s.cache k h]
    rfl

theorem getView_onMessage_record (s : SessionState) (r : LayerRecord) (k : String) :
    getView (onMessage s (WireMsg.record r)) k =
      if writesKey r k then some r else getView s k := by
  show (match cacheGet (putRecordKeys s.pending r) k with
        | some v => some v
        | none => cacheGet s.cache k) = _
  rw [cacheGet_putRecordKeys]
  unfold writesKey
  by_cases h : k = keyRaw r ∨ (sanitize r.layer_id ≠ "" ∧ k = sanitize r.layer_id)
  · simp [h]
  · simp [h, getView]

theorem getView_step_nonwrite (s : SessionState) (e : Ev) (k : String)
    (hstream : e.isStreamEv = true) (hnd : NodupKeys s.pending)
    (hw : ∀ r, e = Ev.msg (WireMsg.record r) → ¬ writesKey r k) :
    getView (step s e) k = getView s k := by
  cases e with
  | msg m =>
      cases m with
      | jnull =>
          show getView (flushPending (setRunning { s with infTimer := false } false)) k = _
          rw [getView_flushPending _ k (by simpa [setRunning, NodupKeys, cacheKeys] using hnd)]
          rfl
      | record r =>
          show getView (onMessage s (WireMsg.record r)) k = _
          rw [getView_onMessage_record, if_neg (hw r rfl)]
      | malformed => rfl
  | flushFire =>
      show getView (if s.flushTimer then flushPending s else s) k = _
      by_cases hf : s.flushTimer
      · rw [if_pos hf, getView_flushPending s k hnd]
      · rw [if_neg hf]
  | infFire =>
      show getView (if s.infTimer then _ else s) k = _
      by_cases hf : s.infTimer
      · rw [if_pos hf]
        rfl
      · rw [if_neg hf]
  | wsClose => rfl
  | wsError => rfl
  | startRun ok => exact Bool.noConfusion hstream
  | loadModel => exact Bool.noConfusion hstream
  | runDone ids => exact Bool.noConfusion hstream
  | runFail => exact Bool.noConfusion hstream

theorem nodupKeys_step (s : SessionState) (e : Ev) (h : NodupKeys s.pending) :
    NodupKeys (step s e).pending := by
  cases e with
  | msg m =>
      cases m with
      | jnull =>
          show NodupKeys (flushPending _).pending
          rw [flushPending_pending]
          exact nodupKeys_nil
      | record r => exact nodupKeys_putRecordKeys _ _ h
      | malformed => exact h
  | flushFire =>
      show NodupKeys (if s.flushTimer then flushPending s else s).pending
      by_cases hf : s.flushTimer
      · rw [if_pos hf, flushPending_pending]
        exact nodupKeys_nil
      · rw [if_neg hf]
        exact h
  | infFire =>
      show NodupKeys (if s.infTimer then _ else s).pending
      by_cases hf : s.infTimer
      · rw [if_pos hf]
        exact h
      · rw [if_neg hf]
        exact h
  | wsClose => exact h
  | wsError => exact h
  | startRun ok =>
      show NodupKeys (startRunFn s ok).pending
      unfold startRunFn
      by_cases hg : s.modelLoaded && !s.running
      · rw [if_pos hg]
        by_cases hok : ok = true
        · rw [if_pos hok]
          exact h
        · rw [if_neg hok]
          exact h
      · rw [if_neg hg]
        exact h
  | loadModel => exact h
  | runDone ids => exact h
  | runFail => exact h

theorem processEvents_cons (s : SessionState) (e : Ev) (es : List Ev) :
    processEvents s (e :: es) = processEvents (step s e) es := rfl

theorem nodupKeys_processEvents (evs : List Ev) (s : SessionState)
    (h : NodupKeys s.pending) : NodupKeys (processEvents s evs).pending := by
  induction evs generalizing s with
  | nil => exact h
  | cons e es ih => exact ih (step s e) (nodupKeys_step s e h)

theorem getView_stable (evs : List Ev) (s : SessionState) (k : String) (r : LayerRecord)
    (hstream : ∀ e ∈ evs, e.isStreamEv = true)
    (hnd : NodupKeys s.pending)
    (hw : ∀ r', Ev.msg (WireMsg.record r') ∈ evs → writesKey r' k → r' = r)
    (hv : getView s k = some r) :
    getView (processEvents s evs) k = some r := by
  induction evs generalizing s with
  | nil => exact hv
  | cons e es ih =>
      have he : e.isStreamEv = true := hstream e (List.mem_cons_self _ _)
      have hstep : getView (step s e) k = some r := by
        by_cases hrec : ∃ r', e = Ev.msg (WireMsg.record r')
        · obtain ⟨r', rfl⟩ := hrec
          show getView (onMessage s (WireMsg.record r')) k = some r
          rw [getView_onMessage_record]
          by_cases hwk : writesKey r' k
          · rw [if_pos hwk, hw r' (List.mem_cons_self _ _) hwk]
          · rw [if_neg hwk]
            exact hv
        · rw [getView_step_nonwrite s e k he hnd (fun r' he' _ => hrec ⟨r', he'⟩)]
          exact hv
      rw [processEvents_cons]
      exact ih (step s e) (fun e' he' => hstream e' (List.mem_cons_of_mem _ he'))
        (nodupKeys_step s e hnd) (fun r' hm => hw r' (List.mem_cons_of_mem _ hm)) hstep

theorem mem_values_batchMerge (b c : Cache) (v : LayerRecord)
    (h : v ∈ cacheValues (batchMerge c b)) : v ∈ cacheValues c ∨ v ∈ cacheValues b := by
  rcases List.mem_map.mp h with ⟨p, hp, hv⟩
  rcases mem_batchMerge_cases b c p hp with h' | h'
  · exact Or.inl (hv ▸ h')
  · exact Or.inr (hv ▸ h')

theorem mem_values_cacheSet (c : Cache) (k : String) (w v : LayerRecord)
    (h : v ∈ cacheValues (cacheSet c k w)) : v = w ∨ v ∈ cacheValues c := by
  rcases List.mem_map.mp h with ⟨p, hp, hv⟩
  rcases mem_cacheSet_cases c k w p hp with h' | h'
  · exact Or.inl (by rw [← hv, h'])
  · exact Or.inr (hv ▸ List.mem_map_of_mem _ h')

theorem mem_values_putRecordKeys (p : Cache) (r v : LayerRecord)
    (h : v ∈ cacheValues (putRecordKeys p r)) : v = r ∨ v ∈ cacheValues p := by
  unfold putRecordKeys at h
  by_cases hs : sanitize r.layer_id ≠ ""
  · rw [if_pos hs] at h
    rcases mem_values_cacheSet _ _ _ _ h with h' | h'
    · exact Or.inl h'
    · exact mem_values_cacheSet _ _ _ _ h'
  · rw [if_neg hs] at h
    exact mem_values_cacheSet _ _ _ _ h

theorem values_step_subset (s : SessionState) (e : Ev) (v : LayerRecord)
    (h : v ∈ cacheValues (step s e).cache ∨ v ∈ cacheValues (step s e).pending) :
    (v ∈ cacheValues s.cache ∨ v ∈ cacheValues s.pending) ∨
      (∃ r, e = Ev.msg (WireMsg.record r) ∧ v = r) := by
  have hflush : ∀ s' : SessionState,
      (v ∈ cacheValues (flushPending s').cache ∨ v ∈ cacheValues (flushPending s').pending) →
      v ∈ cacheValues s'.cache ∨ v ∈ cacheValues s'.pending := by
    intro s' h'
    unfold flushPending at h'
    by_cases hemp : s'.pending.isEmpty
    · simp only [hemp, if_pos] at h'
      rcases h' with h' | h'
      · exact Or.inl h'
      · exact absurd h' (by simp [cacheValues])
    · simp only [if_neg hemp, addToCacheBatch] at h'
      rcases h' with h' | h'
      · exact mem_values_batchMerge _ _ _ h'
      · exact absurd h' (by simp [cacheValues])
  cases e with
  | msg m =>
      cases m with
      | jnull =>
          rcases hflush _ h with h' | h'
          · exact Or.inl (Or.inl h')
          · exact Or.inl (Or.inr h')
      | record r =>
          rcases h with h' | h'
          · exact Or.inl (Or.inl h')
          · rcases mem_values_putRecordKeys s.pending r v h' with h'' | h''
            · exact Or.inr ⟨r, rfl, h''⟩
            · exact Or.inl (Or.inr h'')
      | malformed => exact Or.inl h
  | flushFire =>
      by_cases hf : s.flushTimer
      · have hh : v ∈ cacheValues (flushPending s).cache ∨
            v ∈ cacheValues (flushPending s).pending := by
          simpa [step, hf] using h
        rcases hflush s hh with h' | h'
        · exact Or.inl (Or.inl h')
        · exact Or.inl (Or.inr h')
      · exact Or.inl (by simpa [step, hf] using h)
  | infFire =>
      by_cases hf : s.infTimer
      · exact Or.inl (by simpa [step, hf] using h)
      · exact Or.inl (by simpa [step, hf] using h)
  | wsClose => exact Or.inl h
  | wsError => exact Or.inl h
  | startRun ok =>
      have hh := h
      unfold step startRunFn at hh
      by_cases hg : s.modelLoaded && !s.running
      · by_cases hok : ok = true
        · subst hok
          simp only [hg, if_pos, if_true] at hh
          rcases hh with h' | h'
          · exact absurd h' (by simp [clearCache, setRunning, cacheValues])
          · exact Or.inl (Or.inr h')
        · have hok' : ok = false := by
            cases ok
            · rfl
            · exact absurd rfl hok
          subst hok'
          simp only [hg, if_pos] at hh
          exact Or.inl hh
      · simp only [hg, if_neg, if_false] at hh
        exact Or.inl hh
  | loadModel =>
      rcases h with h' | h'
      · exact absurd h' (by simp [step, loadModelFn, clearCache, cacheValues])
      · exact Or.inl (Or.inr h')
  | runDone ids => exact Or.inl h
  | runFail => exact Or.inl h

theorem cacheValues_provenance (evs : List Ev) (s : SessionState) (v : LayerRecord)
    (h : v ∈ cacheValues (processEvents s evs).cache ∨
         v ∈ cacheValues (processEvents s evs).pending) :
    (v ∈ cacheValues s.cache ∨ v ∈ cacheValues s.pending) ∨
      ∃ r, Ev.msg (WireMsg.record r) ∈ evs ∧ v = r := by
  induction evs generalizing s with
  | nil => exact Or.inl h
  | cons e es ih =>
      rw [processEvents_cons] at h
      rcases ih (step s e) h with h' | h'
      · rcases values_step_subset s e v h' with h'' | ⟨r, he, hv⟩
        · exact Or.inl h''
        · subst he
          exact Or.inr ⟨r, List.mem_cons_self _ _, hv⟩
      · obtain ⟨r, hm, hv⟩ := h'
        exact Or.inr ⟨r, List.mem_cons_of_mem _ hm, hv⟩

theorem cache_unchanged_by_records (rs : List Ev) (s : SessionState)
    (h : ∀ m ∈ rs, ∃ r, m = Ev.msg (WireMsg.record r)) :
    (processEvents s rs).cache = s.cache := by
  induction rs generalizing s with
  | nil => rfl
  | cons e es ih =>
      obtain ⟨r, rfl⟩ := h _ (List.mem_cons_self _ _)
      rw [processEvents_cons]
      exact (ih (step s (Ev.msg (WireMsg.record r)))
        (fun m hm => h m (List.mem_cons_of_mem _ hm))).trans rfl

/-! ## Substring containment characterization -/

theorem isPrefixOfB_iff (l1 l2 : List Char) :
    l1.isPrefixOf l2 = true ↔ ∃ t, l2 = l1 ++ t := by
  induction l1 generalizing l2 with
  | nil => simp [List.isPrefixOf]
  | cons c cs ih =>
      cases l2 with
      | nil => simp [List.isPrefixOf]
      | cons d ds =>
          simp only [List.isPrefixOf, Bool.and_eq_true, beq_iff_eq, ih]
          constructor
          · rintro ⟨rfl, t, rfl⟩
            exact ⟨t, rfl⟩
          · rintro ⟨t, h⟩
            injection h with h1 h2
            exact ⟨h1.symm, t, h2⟩

theorem infixOfB_iff (pat l : List Char) :
    infixOfB pat l = true ↔ ∃ l1 l2, l = l1 ++ pat ++ l2 := by
  induction l with
  | nil =>
      rw [show infixOfB pat [] = pat.isPrefixOf [] from rfl, isPrefixOfB_iff]
      constructor
      · rintro ⟨t, h⟩
        exact ⟨[], t, by simpa using h⟩
      · rintro ⟨l1, l2, h⟩
        have h' := List.append_eq_nil.mp h.symm
        have h'' := List.append_eq_nil.mp h'.1
        refine ⟨l2, ?_⟩
        rw [h''.2]
        simpa using h'.2.symm
  | cons c cs ih =>
      rw [show infixOfB pat (c :: cs) = (pat.isPrefixOf (c :: cs) || infixOfB pat cs)
          from rfl]
      rw [Bool.or_eq_true, isPrefixOfB_iff, ih]
      constructor
      · rintro (⟨t, h⟩ | ⟨l1, l2, h⟩)
        · exact ⟨[], t, by simpa using h⟩
        · exact ⟨c :: l1, l2, by simp [h]⟩
      · rintro ⟨l1, l2, h⟩
        cases l1 with
        | nil => exact Or.inl ⟨l2, by simpa using h⟩
        | cons d ds =>
            injection h with h1 h2
            exact Or.inr ⟨ds, l2, h2⟩

theorem containsSub_iff (s pat : String) :
    containsSub s pat = true ↔ ∃ l1 l2, s.data = l1 ++ pat.data ++ l2 :=
  infixOfB_iff pat.data s.data

/-! ## Single-record cache shape -/

theorem cacheValues_putRecordKeys_nil (r : LayerRecord) :
    cacheValues (putRecordKeys [] r) = [r] ∨ cacheValues (putRecordKeys [] r) = [r, r] := by
  unfold putRecordKeys
  by_cases hs : sanitize r.layer_id ≠ ""
  · rw [if_pos hs]
    by_cases hk : keyRaw r = sanitize r.layer_id
    · left
      simp [cacheSet, hk, cacheValues]
    · right
      simp [cacheSet, hk, cacheValues]
  · rw [if_neg hs]
    left
    simp [cacheSet, cacheValues]

/-! ## Event-list bookkeeping -/

theorem processEvents_append (s : SessionState) (evs1 evs2 : List Ev) :
    processEvents s (evs1 ++ evs2) = processEvents (processEvents s evs1) evs2 := by
  unfold processEvents
  rw [List.foldl_append]

theorem getView_of_pending_nil (s : SessionState) (h : s.pending = []) (k : String) :
    getView s k = cacheGet s.cache k := by
  simp [getView, h]

/-! ## Claim theorems -/

/-- C2: a record put into the cache under a set of string keys is returned
by a subsequent `get` with any key of that set (round-trip); a later put
with an overlapping key overwrites that key's mapping to the new record
(last-write-wins), leaving keys outside the put's key set untouched; both
operations are total functions, so no input can crash them. -/
theorem cache_put_get_roundtrip :
    (∀ (c : Cache) (keys : List String) (r : LayerRecord) (k : String),
        k ∈ keys → cacheGet (putUnderKeys c keys r) k = some r)
    ∧ (∀ (c : Cache) (keys1 : List String) (r1 : LayerRecord)
        (keys2 : List String) (r2 : LayerRecord) (k : String), k ∈ keys2 →
        cacheGet (putUnderKeys (putUnderKeys c keys1 r1) keys2 r2) k = some r2)
    ∧ (∀ (c : Cache) (keys : List String) (r : LayerRecord) (k : String),
        k ∉ keys → cacheGet (putUnderKeys c keys r) k = cacheGet c k) :=
  ⟨cacheGet_putUnderKeys_mem,
   fun _ _ _ keys2 r2 k h => cacheGet_putUnderKeys_mem _ keys2 r2 k h,
   cacheGet_putUnderKeys_not_mem⟩

/-- Witness for C2 at concrete inputs: round-trip for a two-key put, and
last-write-wins on a reused key. -/
theorem cache_put_get_roundtrip_witness :
    cacheGet (putUnderKeys [] ["a/b", "a_b"] ⟨"a/b", "n"⟩) "a_b" = some ⟨"a/b", "n"⟩
    ∧ cacheGet (putUnderKeys (putUnderKeys [] ["k"] ⟨"k", "old"⟩) ["k"] ⟨"k", "new"⟩) "k"
        = some ⟨"k", "new"⟩ :=
  ⟨cache_put_get_roundtrip.1 [] ["a/b", "a_b"] ⟨"a/b", "n"⟩ "a_b" (by decide),
   cache_put_get_roundtrip.2.1 [] ["k"] ⟨"k", "old"⟩ ["k"] ⟨"k", "new"⟩ "k" (by decide)⟩

/-- C10: if the stream transport closes, errors, or delivers an unparseable
message, the consumer's handler sets the running flag to false, from any
session state. -/
theorem stream_death_clears_running (s : SessionState) :
    (step s (Ev.msg WireMsg.malformed)).running = false
    ∧ (step s Ev.wsClose).running = false
    ∧ (step s Ev.wsError).running = false :=
  ⟨rfl, rfl, rfl⟩

/-- C5 counterexample: a trace in which records from two different runs end
up in one cache.  Run 1 receives the record keyed `"k1"`, the stream then
delivers a malformed message (clearing `running` without flushing), and a
second run starts and receives `"k2"`; the sentinel's flush then merges the
stale pending record of run 1 into run 2's cache next to run 2's record. -/
theorem run_interleave_counterexample :
    cacheGet (processEvents sessionInit
      [Ev.loadModel, Ev.startRun true, Ev.msg (WireMsg.record ⟨"k1", "run one"⟩),
       Ev.msg WireMsg.malformed, Ev.startRun true,
       Ev.msg (WireMsg.record ⟨"k2", "run two"⟩), Ev.msg WireMsg.jnull]).cache "k1"
      = some ⟨"k1", "run one"⟩
    ∧ cacheGet (processEvents sessionInit
      [Ev.loadModel, Ev.startRun true, Ev.msg (WireMsg.record ⟨"k1", "run one"⟩),
       Ev.msg WireMsg.malformed, Ev.startRun true,
       Ev.msg (WireMsg.record ⟨"k2", "run two"⟩), Ev.msg WireMsg.jnull]).cache "k2"
      = some ⟨"k2", "run two"⟩ := by
  decide

/-- C5 (amended): while `running` is set, or when no model is loaded, a
run-start request is rejected with no state change at all (in particular
the cache is not cleared mid-run); an accepted start sets `running` and
clears the cache and layer order. -/
theorem run_start_guard (s : SessionState) (ok : Bool) :
    (s.running = true → startRunFn s ok = s)
    ∧ (s.modelLoaded = false → startRunFn s ok = s)
    ∧ (s.running = false → s.modelLoaded = true →
        (startRunFn s true).running = true ∧ (startRunFn s true).cache = []
        ∧ (startRunFn s true).layerOrder = []) := by
  refine ⟨?_, ?_, ?_⟩
  · intro h
    unfold startRunFn
    simp [h]
  · intro h
    unfold startRunFn
    simp [h]
  · intro h1 h2
    unfold startRunFn
    simp [h1, h2, clearCache, setRunning]

/-- Witness for C5's amended theorem: a busy session rejects a second start
unchanged, and an idle loaded session accepts with a cleared cache. -/
theorem run_start_guard_witness :
    startRunFn { modelLoaded := true, cache := [("k", ⟨"k", "n"⟩)], pending := []
               , layerOrder := ["k"], running := true, flushTimer := false
               , infTimer := false, alerted := false } true
      = { modelLoaded := true, cache := [("k", ⟨"k", "n"⟩)], pending := []
        , layerOrder := ["k"], running := true, flushTimer := false
        , infTimer := false, alerted := false }
    ∧ (startRunFn { modelLoaded := true, cache := [("k", ⟨"k", "n"⟩)], pending := []
                  , layerOrder := ["k"], running := false, flushTimer := false
                  , infTimer := false, alerted := false } true).cache = [] :=
  ⟨(run_start_guard _ true).1 rfl, ((run_start_guard _ true).2.2 rfl rfl).2.1⟩

/-- C6 counterexample: a record outlives its run.  Run 1 ends abnormally
(socket error) with the record keyed `"old_key"` still sitting in the
consumer's pending batch buffer; starting run 2 calls `clearCache`, which
empties only the store, and the still-armed 100 ms flush timer then merges
the stale record into the new run's cache. -/
theorem record_outlives_run_counterexample :
    cacheGet (processEvents sessionInit
      [Ev.loadModel, Ev.startRun true, Ev.msg (WireMsg.record ⟨"old_key", "stale"⟩),
       Ev.wsError, Ev.startRun true, Ev.flushFire]).cache "old_key"
      = some ⟨"old_key", "stale"⟩ := by
  decide

/-- C6 (amended): `clearCache` empties the store (every `get` on the
cleared store misses, and the layer order is reset), and it is invoked by
an accepted run start and by a model load.  Records already flushed to the
store therefore never survive those boundaries; only the consumer-local
pending buffer, which `clearCache` does not touch, can leak across them. -/
theorem clear_cache_semantics (s : SessionState) (k : String) :
    cacheGet (clearCache s).cache k = none
    ∧ (clearCache s).cache = []
    ∧ (clearCache s).layerOrder = []
    ∧ (s.running = false → s.modelLoaded = true → (startRunFn s true).cache = [])
    ∧ (loadModelFn s).cache = [] := by
  refine ⟨rfl, rfl, rfl, ?_, rfl⟩
  intro h1 h2
  unfold startRunFn
  simp [h1, h2, clearCache, setRunning]

/-- Witness for C6's amended theorem at a concrete populated session. -/
theorem clear_cache_semantics_witness :
    cacheGet (clearCache { modelLoaded := true, cache := [("k", ⟨"k", "n"⟩)],
                           pending := [], layerOrder := ["k"], running := false,
                           flushTimer := false, infTimer := false,
                           alerted := false }).cache "k" = none
    ∧ (startRunFn { modelLoaded := true, cache := [("k", ⟨"k", "n"⟩)],
                    pending := [], layerOrder := ["k"], running := false,
                    flushTimer := false, infTimer := false,
                    alerted := false } true).cache = [] :=
  ⟨(clear_cache_semantics _ "k").1, (clear_cache_semantics _ "k").2.2.2.1 rfl rfl⟩

/-- C4 counterexample: a run with zero record messages never arms the
consumer-side inference timeout, so no amount of elapsed time (modelled by
timer-fire opportunities) marks the run failed: `running` stays `true` and
no failure is ever alerted, even though the sentinel never arrived. -/
theorem zero_record_timeout_counterexample :
    (processEvents sessionInit [Ev.loadModel, Ev.startRun true]).infTimer = false
    ∧ (processEvents sessionInit
        [Ev.loadModel, Ev.startRun true, Ev.infFire, Ev.flushFire, Ev.infFire]).running = true
    ∧ (processEvents sessionInit
        [Ev.loadModel, Ev.startRun true, Ev.infFire, Ev.flushFire, Ev.infFire]).alerted = false := by
  decide

/-- C4 (amended): the 120 s inference timeout is armed by the first record
message, not at run start; once armed, its firing clears `running` and
reports a user-visible failure; and in a run where no record message ever
arrives, timer-fire opportunities alone never change the session, so the
run is never locally marked failed by a timeout. -/
theorem inference_timeout_semantics :
    (∀ (s : SessionState) (r : LayerRecord),
        (onMessage s (WireMsg.record r)).infTimer = true)
    ∧ (∀ s : SessionState, s.infTimer = true →
        (step s Ev.infFire).running = false ∧ (step s Ev.infFire).alerted = true)
    ∧ (∀ (s : SessionState) (evs : List Ev), s.infTimer = false → s.flushTimer = false →
        (∀ e ∈ evs, e = Ev.infFire ∨ e = Ev.flushFire) → processEvents s evs = s) := by
  refine ⟨fun s r => rfl, ?_, ?_⟩
  · intro s h
    constructor
    · show (if s.infTimer then _ else s).running = false
      rw [if_pos h]
    · show (if s.infTimer then _ else s).alerted = true
      rw [if_pos h]
  · intro s evs h1 h2 hev
    induction evs with
    | nil => rfl
    | cons e es ih =>
        rw [processEvents_cons]
        have hstep : step s e = s := by
          rcases hev e (List.mem_cons_self _ _) with rfl | rfl
          · show (if s.infTimer then _ else s) = s
            rw [h1]
            simp
          · show (if s.flushTimer then _ else s) = s
            rw [h2]
            simp
        rw [hstep]
        exact ih (fun e' he' => hev e' (List.mem_cons_of_mem _ he'))

/-- Witness for C4's amended theorem: a record message arms the timer in
the run-start state, and firing the armed timer clears `running` and
alerts. -/
theorem inference_timeout_semantics_witness :
    (onMessage runStart (WireMsg.record ⟨"k", "n"⟩)).infTimer = true
    ∧ (step (onMessage runStart (WireMsg.record ⟨"k", "n"⟩)) Ev.infFire).running = false
    ∧ processEvents runStart [Ev.infFire, Ev.flushFire] = runStart :=
  ⟨inference_timeout_semantics.1 runStart ⟨"k", "n"⟩,
   (inference_timeout_semantics.2.1 _ (inference_timeout_semantics.1 runStart ⟨"k", "n"⟩)).1,
   inference_timeout_semantics.2.2 runStart [Ev.infFire, Ev.flushFire] rfl rfl (by decide)⟩

/-- C7 counterexample: two records of one run with distinct raw runtime
keys, `"x_y"` and `"x.y"`, are conflated.  `sanitize "x.y" = "x_y"`, so the
second put's sanitized alias overwrites the first record's only key: after
both puts no cache key maps to the first record any more. -/
theorem sanitized_collision_counterexample :
    sanitize "x.y" = "x_y"
    ∧ (putRecordKeys (putRecordKeys [] ⟨"x_y", "first"⟩) ⟨"x.y", "second"⟩).all
        (fun p => !(p.2 == ⟨"x_y", "first"⟩)) = true
    ∧ cacheGet (putRecordKeys (putRecordKeys [] ⟨"x_y", "first"⟩) ⟨"x.y", "second"⟩) "x_y"
        = some ⟨"x.y", "second"⟩ := by
  decide

/-- C7 (amended): two records of one run with distinct raw runtime keys
remain separately retrievable after both puts, provided their sanitized
keys differ (when the sanitized keys coincide, the later put's alias
overwrites the earlier record, last-write-wins). -/
theorem no_conflation_distinct_sanitized (r1 r2 : LayerRecord)
    (h1 : r1.layer_id ≠ "") (h2 : r2.layer_id ≠ "")
    (hs : sanitize r1.layer_id ≠ sanitize r2.layer_id) :
    cacheGet (putRecordKeys (putRecordKeys [] r1) r2) r1.layer_id = some r1
    ∧ cacheGet (putRecordKeys (putRecordKeys [] r1) r2) r2.layer_id = some r2 := by
  have hkr1 : keyRaw r1 = r1.layer_id := by
    unfold keyRaw
    rw [if_neg h1]
  have hkr2 : keyRaw r2 = r2.layer_id := by
    unfold keyRaw
    rw [if_neg h2]
  have hs1 : sanitize r1.layer_id ≠ "" := sanitize_ne_empty _ h1
  constructor
  · rw [cacheGet_putRecordKeys, if_neg, cacheGet_putRecordKeys, if_pos (Or.inl hkr1.symm)]
    rintro (hc | ⟨-, hc⟩)
    · rw [hkr2] at hc
      exact hs (by rw [hc])
    · exact hs (by rw [hc, sanitize_idem])
  · rw [cacheGet_putRecordKeys, if_pos (Or.inl hkr2.symm)]

/-- Witness for C7's amended theorem: records keyed `"conv1"` and `"conv2"`
both stay retrievable. -/
theorem no_conflation_distinct_sanitized_witness :
    cacheGet (putRecordKeys (putRecordKeys [] ⟨"conv1", "a"⟩) ⟨"conv2", "b"⟩) "conv1"
      = some ⟨"conv1", "a"⟩
    ∧ cacheGet (putRecordKeys (putRecordKeys [] ⟨"conv1", "a"⟩) ⟨"conv2", "b"⟩) "conv2"
      = some ⟨"conv2", "b"⟩ :=
  no_conflation_distinct_sanitized ⟨"conv1", "a"⟩ ⟨"conv2", "b"⟩
    (by decide) (by decide) (by decide)

/-- C8 counterexample: for runtime key `"Conv_12"` and OperationNode id
`"conv_12"` the sanitized match (rule 2) FAILS: `sanitize` replaces
characters outside `[A-Za-z0-9_]` but does not change case, so the two
sanitized keys differ and neither lookup under the node id nor under its
sanitized form hits the cache. -/
theorem sanitized_match_case_counterexample :
    sanitize "Conv_12" ≠ sanitize "conv_12"
    ∧ cacheGet (putRecordKeys [] ⟨"Conv_12", "Conv_12"⟩) "conv_12" = none
    ∧ cacheGet (putRecordKeys [] ⟨"Conv_12", "Conv_12"⟩) (sanitize "conv_12") = none := by
  decide

/-- C8 (amended): with a record stored under runtime key `"Conv_12"` and an
OperationNode `id "conv_12"` named `"conv_12"`, resolution still succeeds
for both lookups, but not via rule 2: `"Conv_12"` hits rule 1 (exact key),
and `"conv_12"` falls through rules 1-2 (case-sensitive sanitize) and is
rescued by the case-insensitive suffix-name match (rule 3). -/
theorem conv12_retrieval :
    resolveRecord [⟨"conv_12", some "conv_12"⟩]
        (putRecordKeys [] ⟨"Conv_12", "Conv_12"⟩) "Conv_12"
      = some ⟨"Conv_12", "Conv_12"⟩
    ∧ resolveRecord [⟨"conv_12", some "conv_12"⟩]
        (putRecordKeys [] ⟨"Conv_12", "Conv_12"⟩) "conv_12"
      = some ⟨"Conv_12", "Conv_12"⟩
    ∧ suffixRuleMatches (some "conv_12") "Conv_12" = true
    ∧ cacheGet (putRecordKeys [] ⟨"Conv_12", "Conv_12"⟩) (sanitize "conv_12") = none := by
  decide

/-- C9 counterexample: the spec's either-direction containment matches the
node name `"conv12extra"` against the record name `"conv12"` (the node's
cleaned name contains the record's), but the code's one-directional rule
(`rClean.includes(nClean)`) does not, and the resolver finds nothing. -/
theorem suffix_direction_counterexample :
    specSuffixMatch "conv12extra" "conv12" = true
    ∧ suffixRuleMatches (some "conv12extra") "conv12" = false
    ∧ findRecord (putRecordKeys [] ⟨"key1", "conv12"⟩) "zzz" (some "conv12extra") = none := by
  decide

/-- C9 (amended): the code's suffix-name rule compares the OperationNode's
name stripped to its last path segment and normalized (non-alphanumerics
removed, lower-cased) against the record's display name normalized the same
way, and matches exactly when both are non-empty and the record's cleaned
name contains the node's cleaned name as a substring — containment in that
one direction only. -/
theorem suffix_rule_one_directional (nodeName recName : String) :
    suffixRuleMatches (some nodeName) recName = true ↔
      cleanForMatch (lastSeg nodeName) ≠ "" ∧ cleanForMatch recName ≠ ""
      ∧ ∃ l1 l2, (cleanForMatch recName).data
          = l1 ++ (cleanForMatch (lastSeg nodeName)).data ++ l2 := by
  show ((cleanForMatch (lastSeg nodeName) != "") && (cleanForMatch recName != "")
      && containsSub (cleanForMatch recName) (cleanForMatch (lastSeg nodeName))) = true ↔ _
  rw [Bool.and_eq_true, Bool.and_eq_true, bne_iff_ne, bne_iff_ne, containsSub_iff]
  tauto

/-- C1: the resolver applies three rules with first match winning — an
exact cache hit on the node id always wins (rule 1); when it misses, a hit
on the sanitized node id wins (rule 2); and for a cache holding one record
put under its raw and sanitized runtime keys, resolution succeeds exactly
when the node id equals the raw key, or the sanitized forms of node id and
runtime key coincide, or the suffix-name rule matches (rule 3); and
independently of any node match, the record stays retrievable under its
raw and sanitized runtime keys. -/
theorem resolution_rules :
    (∀ (c : Cache) (nodeId : String) (nn : Option String) (r : LayerRecord),
        cacheGet c nodeId = some r → findRecord c nodeId nn = some r)
    ∧ (∀ (c : Cache) (nodeId : String) (nn : Option String) (r : LayerRecord),
        cacheGet c nodeId = none → cacheGet c (sanitize nodeId) = some r →
        findRecord c nodeId nn = some r)
    ∧ (∀ (r : LayerRecord) (nodeId : String) (nn : Option String), r.layer_id ≠ "" →
        ((findRecord (putRecordKeys [] r) nodeId nn).isSome = true ↔
          (nodeId = r.layer_id ∨ sanitize nodeId = sanitize r.layer_id
            ∨ suffixRuleMatches nn r.name = true)))
    ∧ (∀ r : LayerRecord, r.layer_id ≠ "" →
        cacheGet (putRecordKeys [] r) r.layer_id = some r
        ∧ cacheGet (putRecordKeys [] r) (sanitize r.layer_id) = some r) := by
  have hget : ∀ (r : LayerRecord), r.layer_id ≠ "" → ∀ k,
      cacheGet (putRecordKeys [] r) k
        = if k = r.layer_id ∨ k = sanitize r.layer_id then some r else none := by
    intro r h k
    have hs : sanitize r.layer_id ≠ "" := sanitize_ne_empty _ h
    have hkr : keyRaw r = r.layer_id := by
      unfold keyRaw
      rw [if_neg h]
    rw [cacheGet_putRecordKeys, hkr]
    by_cases hc : k = r.layer_id ∨ k = sanitize r.layer_id
    · rcases hc with hc | hc
      · rw [if_pos (Or.inl hc), if_pos (Or.inl hc)]
      · rw [if_pos (Or.inr ⟨hs, hc⟩), if_pos (Or.inr hc)]
    · push_neg at hc
      rw [if_neg (by push_neg; exact ⟨hc.1, fun _ => hc.2⟩),
          if_neg (by push_neg; exact hc)]
      rfl
  refine ⟨?_, ?_, ?_, ?_⟩
  · intro c nodeId nn r h
    unfold findRecord
    rw [h]
  · intro c nodeId nn r h1 h2
    unfold findRecord
    rw [h1, h2]
  · intro r nodeId nn h
    have hfind : ∀ (pb : LayerRecord → Bool),
        ((cacheValues (putRecordKeys [] r)).find? pb).isSome = pb r := by
      intro pb
      by_cases hp : pb r = true
      · rcases cacheValues_putRecordKeys_nil r with hv | hv <;>
          rw [hv, List.find?_cons_of_pos _ hp] <;> simp [hp]
      · rcases cacheValues_putRecordKeys_nil r with hv | hv
        · rw [hv, List.find?_cons_of_neg _ hp]
          cases hb : pb r
          · rfl
          · exact absurd hb hp
        · rw [hv, List.find?_cons_of_neg _ hp, List.find?_cons_of_neg _ hp]
          cases hb : pb r
          · rfl
          · exact absurd hb hp
    unfold findRecord
    rw [hget r h nodeId, hget r h (sanitize nodeId)]
    by_cases hc1 : nodeId = r.layer_id ∨ nodeId = sanitize r.layer_id
    · rw [if_pos hc1]
      constructor
      · intro _
        rcases hc1 with hc | hc
        · exact Or.inl hc
        · refine Or.inr (Or.inl ?_)
          rw [hc, sanitize_idem]
      · intro _
        rfl
    · rw [if_neg hc1]
      by_cases hc2 : sanitize nodeId = r.layer_id ∨ sanitize nodeId = sanitize r.layer_id
      · rw [if_pos hc2]
        constructor
        · intro _
          refine Or.inr (Or.inl ?_)
          rcases hc2 with hc | hc
          · rw [← hc, sanitize_idem]
          · exact hc
        · intro _
          rfl
      · rw [if_neg hc2]
        rw [hfind (fun r0 => suffixRuleMatches nn r0.name)]
        constructor
        · intro hsuf
          exact Or.inr (Or.inr hsuf)
        · rintro (hc | hc | hc)
          · exact absurd (Or.inl hc) hc1
          · exact absurd (Or.inr hc) hc2
          · exact hc
  · intro r h
    constructor
    · rw [hget r h r.layer_id, if_pos (Or.inl rfl)]
    · rw [hget r h (sanitize r.layer_id), if_pos (Or.inr rfl)]

/-- Witness for C1 at concrete inputs: rule 1 wins for an exact hit, the
single-record equivalence holds with a sanitized match, and a record with
no matching node stays retrievable under raw and sanitized keys. -/
theorem resolution_rules_witness :
    findRecord [("a_b", ⟨"a/b", "n"⟩)] "a_b" none = some ⟨"a/b", "n"⟩
    ∧ (findRecord (putRecordKeys [] ⟨"a/b", "n"⟩) "a.b" none).isSome = true
    ∧ cacheGet (putRecordKeys [] ⟨"a/b", "n"⟩) "a/b" = some ⟨"a/b", "n"⟩
    ∧ cacheGet (putRecordKeys [] ⟨"a/b", "n"⟩) (sanitize "a/b") = some ⟨"a/b", "n"⟩ :=
  ⟨resolution_rules.1 [("a_b", ⟨"a/b", "n"⟩)] "a_b" none ⟨"a/b", "n"⟩ (by decide),
   (resolution_rules.2.2.1 ⟨"a/b", "n"⟩ "a.b" none (by decide)).mpr
     (Or.inr (Or.inl (by decide))),
   (resolution_rules.2.2.2 ⟨"a/b", "n"⟩ (by decide)).1,
   (resolution_rules.2.2.2 ⟨"a/b", "n"⟩ (by decide)).2⟩

/-- C3 counterexample: a record received before the sentinel that is absent
from the cache after the sentinel is processed.  The run receives records
with raw keys `"a_b"` and then `"a/b"`; the second record's sanitized alias
`"a_b"` overwrites the first record's keys in the pending buffer, so after
the sentinel's flush no cache entry holds the first record. -/
theorem sentinel_flush_lost_record_counterexample :
    Ev.msg (WireMsg.record ⟨"a_b", "first"⟩) ∈
      [Ev.msg (WireMsg.record ⟨"a_b", "first"⟩), Ev.msg (WireMsg.record ⟨"a/b", "second"⟩)]
    ∧ (processEvents runStart
        ([Ev.msg (WireMsg.record ⟨"a_b", "first"⟩), Ev.msg (WireMsg.record ⟨"a/b", "second"⟩)]
          ++ [Ev.msg WireMsg.jnull])).cache.all
        (fun p => !(p.2 == ⟨"a_b", "first"⟩)) = true
    ∧ (processEvents runStart
        ([Ev.msg (WireMsg.record ⟨"a_b", "first"⟩), Ev.msg (WireMsg.record ⟨"a/b", "second"⟩)]
          ++ [Ev.msg WireMsg.jnull])).pending = [] := by
  decide

/-- C3 (amended): over any stream-event trace of one run ending with the
`null` sentinel: the sentinel clears `running` and flushes the whole
pending buffer; every record received before the sentinel whose raw and
sanitized keys are written by no other record of the run is present in the
cache under both keys after the sentinel (colliding keys resolve
last-write-wins); every cached value is one of the received records, so the
sentinel itself is never stored; record messages alone never touch the
consumer-visible cache (batching) and an armed flush applies the whole
pending buffer as one batch. -/
theorem batching_and_sentinel_flush :
    (∀ evs : List Ev, (∀ e ∈ evs, e.isStreamEv = true) →
      (processEvents runStart (evs ++ [Ev.msg WireMsg.jnull])).running = false
      ∧ (processEvents runStart (evs ++ [Ev.msg WireMsg.jnull])).pending = []
      ∧ (∀ r : LayerRecord, Ev.msg (WireMsg.record r) ∈ evs → r.layer_id ≠ "" →
          (∀ r' : LayerRecord, Ev.msg (WireMsg.record r') ∈ evs →
            (writesKey r' r.layer_id ∨ writesKey r' (sanitize r.layer_id)) → r' = r) →
          cacheGet (processEvents runStart (evs ++ [Ev.msg WireMsg.jnull])).cache
              r.layer_id = some r
          ∧ cacheGet (processEvents runStart (evs ++ [Ev.msg WireMsg.jnull])).cache
              (sanitize r.layer_id) = some r)
      ∧ (∀ (k : String) (v : LayerRecord),
          cacheGet (processEvents runStart (evs ++ [Ev.msg WireMsg.jnull])).cache k
            = some v → Ev.msg (WireMsg.record v) ∈ evs))
    ∧ (∀ (s : SessionState) (rs : List Ev),
        (∀ m ∈ rs, ∃ r, m = Ev.msg (WireMsg.record r)) →
        (processEvents s rs).cache = s.cache)
    ∧ (∀ s : SessionState, s.flushTimer = true → s.pending ≠ [] →
        (step s Ev.flushFire).cache = batchMerge s.cache s.pending
        ∧ (step s Ev.flushFire).pending = []) := by
  refine ⟨?_, fun s rs h => cache_unchanged_by_records rs s h, ?_⟩
  · intro evs hstream
    refine ⟨?_, ?_, ?_, ?_⟩
    · rw [processEvents_append]
      show (flushPending (setRunning _ false)).running = false
      rw [flushPending_running]
      rfl
    · rw [processEvents_append]
      exact flushPending_pending _
    · intro r hmem hne hcol
      obtain ⟨l1, l2, rfl⟩ := List.append_of_mem hmem
      have hs : sanitize r.layer_id ≠ "" := sanitize_ne_empty _ hne
      have hkr : keyRaw r = r.layer_id := by
        unfold keyRaw
        rw [if_neg hne]
      have main : ∀ k : String, writesKey r k →
          (∀ r' : LayerRecord,
            Ev.msg (WireMsg.record r') ∈ l1 ++ Ev.msg (WireMsg.record r) :: l2 →
            writesKey r' k → r' = r) →
          cacheGet (processEvents runStart
            ((l1 ++ Ev.msg (WireMsg.record r) :: l2) ++ [Ev.msg WireMsg.jnull])).cache k
            = some r := by
        intro k hwk hcolk
        have heq : processEvents runStart
            ((l1 ++ Ev.msg (WireMsg.record r) :: l2) ++ [Ev.msg WireMsg.jnull])
            = processEvents (onMessage (processEvents runStart l1) (WireMsg.record r))
                (l2 ++ [Ev.msg WireMsg.jnull]) := by
          rw [show (l1 ++ Ev.msg (WireMsg.record r) :: l2) ++ [Ev.msg WireMsg.jnull]
                = l1 ++ (Ev.msg (WireMsg.record r) :: (l2 ++ [Ev.msg WireMsg.jnull])) by simp,
              processEvents_append, processEvents_cons]
          rfl
        rw [heq]
        have hnd1 : NodupKeys (processEvents runStart l1).pending :=
          nodupKeys_processEvents l1 runStart nodupKeys_nil
        have hnd2 : NodupKeys
            (onMessage (processEvents runStart l1) (WireMsg.record r)).pending :=
          nodupKeys_step (processEvents runStart l1) (Ev.msg (WireMsg.record r)) hnd1
        have hv : getView (onMessage (processEvents runStart l1) (WireMsg.record r)) k
            = some r := by
          rw [getView_onMessage_record, if_pos hwk]
        have hstream2 : ∀ e ∈ l2 ++ [Ev.msg WireMsg.jnull], e.isStreamEv = true := by
          intro e he
          rcases List.mem_append.mp he with he | he
          · exact hstream e (List.mem_append.mpr (Or.inr (List.mem_cons_of_mem _ he)))
          · rw [List.mem_singleton.mp he]
            rfl
        have hw2 : ∀ r', Ev.msg (WireMsg.record r') ∈ l2 ++ [Ev.msg WireMsg.jnull] →
            writesKey r' k → r' = r := by
          intro r' hm hwk'
          rcases List.mem_append.mp hm with hm | hm
          · exact hcolk r' (List.mem_append.mpr (Or.inr (List.mem_cons_of_mem _ hm))) hwk'
          · rw [List.mem_singleton] at hm
            injection hm with hmm
            exact WireMsg.noConfusion hmm
        have hstable := getView_stable (l2 ++ [Ev.msg WireMsg.jnull]) _ k r
          hstream2 hnd2 hw2 hv
        have hpend : (processEvents
            (onMessage (processEvents runStart l1) (WireMsg.record r))
            (l2 ++ [Ev.msg WireMsg.jnull])).pending = [] := by
          rw [processEvents_append]
          exact flushPending_pending _
        rw [← getView_of_pending_nil _ hpend k]
        exact hstable
      constructor
      · exact main r.layer_id (Or.inl hkr.symm)
          (fun r' hm hw => hcol r' hm (Or.inl hw))
      · exact main (sanitize r.layer_id) (Or.inr ⟨hs, rfl⟩)
          (fun r' hm hw => hcol r' hm (Or.inr hw))
    · intro k v hget
      have hmem : v ∈ cacheValues
          (processEvents runStart (evs ++ [Ev.msg WireMsg.jnull])).cache :=
        List.mem_map_of_mem _ (cacheGet_mem _ _ _ hget)
      rcases cacheValues_provenance (evs ++ [Ev.msg WireMsg.jnull]) runStart v
          (Or.inl hmem) with h' | ⟨r, hm, hv⟩
      · rcases h' with h' | h' <;> simp [runStart, cacheValues] at h'
      · subst hv
        rcases List.mem_append.mp hm with hm | hm
        · exact hm
        · rw [List.mem_singleton] at hm
          injection hm with hmm
          exact WireMsg.noConfusion hmm
  · intro s h1 h2
    have hemp : s.pending.isEmpty = false := by
      cases hp : s.pending.isEmpty
      · rfl
      · exact absurd (List.isEmpty_iff.mp hp) h2
    constructor
    · show (if s.flushTimer then flushPending s else s).cache = _
      rw [if_pos h1]
      unfold flushPending
      simp [hemp, addToCacheBatch]
    · show (if s.flushTimer then flushPending s else s).pending = []
      rw [if_pos h1]
      exact flushPending_pending s

/-- Witness for C3's amended theorem on a concrete three-event run: two
records around a mid-run flush, sentinel at the end; `running` ends false
and the first record is retrievable under its raw key. -/
theorem batching_and_sentinel_flush_witness :
    (processEvents runStart
      ([Ev.msg (WireMsg.record ⟨"w1", "n1"⟩), Ev.flushFire,
        Ev.msg (WireMsg.record ⟨"w2", "n2"⟩)] ++ [Ev.msg WireMsg.jnull])).running = false
    ∧ cacheGet (processEvents runStart
      ([Ev.msg (WireMsg.record ⟨"w1", "n1"⟩), Ev.flushFire,
        Ev.msg (WireMsg.record ⟨"w2", "n2"⟩)] ++ [Ev.msg WireMsg.jnull])).cache "w1"
      = some ⟨"w1", "n1"⟩ := by
  have hcol : ∀ r' : LayerRecord,
      Ev.msg (WireMsg.record r') ∈
        [Ev.msg (WireMsg.record ⟨"w1", "n1"⟩), Ev.flushFire,
         Ev.msg (WireMsg.record ⟨"w2", "n2"⟩)] →
      (writesKey r' (LayerRecord.layer_id ⟨"w1", "n1"⟩)
        ∨ writesKey r' (sanitize (LayerRecord.layer_id ⟨"w1", "n1"⟩))) →
      r' = ⟨"w1", "n1"⟩ := by
    intro r' hm hw
    simp only [List.mem_cons, List.not_mem_nil, or_false] at hm
    rcases hm with hm | hm | hm
    · injection hm with hmm
      injection hmm
    · exact Ev.noConfusion hm
    · injection hm with hmm
      injection hmm with hmm2
      subst hmm2
      exact absurd hw (by decide)
  have h := batching_and_sentinel_flush.1
    [Ev.msg (WireMsg.record ⟨"w1", "n1"⟩), Ev.flushFire,
     Ev.msg (WireMsg.record ⟨"w2", "n2"⟩)] (by decide)
  exact ⟨h.1, (h.2.2.1 ⟨"w1", "n1"⟩ (by decide) (by decide) hcol).1⟩

end Strata

